import Mathlib

/- Verification of the catalog-key resolution and matching engine of app.py:
   the key normalizer `_norm`, the tokenizer `_tokens`, the manifest index
   builder (the row loop of `load_manifest`), the cascading matcher
   `get_image_list` and the case-insensitive filesystem fallback
   `resolve_caseless_path` / `_child_caseless`.

   Text is modelled as `List Char` over the ASCII fragment: on that fragment
   `unicodedata.normalize("NFKC", s)` is the identity and `str.lower` is the
   A-Z to a-z shift, and those are the models used below.  The manifest dict
   is modelled as an insertion-ordered association list with in-place
   overwrite, which is exactly the iteration/overwrite behaviour of a Python
   dict.  Filesystem and exception behaviour of the fallback tier is modelled
   explicitly: an `Except Unit` result distinguishes a raised exception from
   a returned value. -/

/-- Python whitespace for no-argument `str.split` / `str.strip`, ASCII
fragment: space, tab, newline, vertical tab, form feed, carriage return. -/
def isPySpace (c : Char) : Bool :=
  decide (c.toNat = 32 ∨ c.toNat = 9 ∨ c.toNat = 10 ∨ c.toNat = 11 ∨ c.toNat = 12 ∨ c.toNat = 13)

/-- Python `str.lower` on the ASCII fragment: shift A-Z to a-z. -/
def pyLower (c : Char) : Char :=
  if 65 ≤ c.toNat ∧ c.toNat ≤ 90 then Char.ofNat (c.toNat + 32) else c

/-- `str.lower` on a whole string. -/
def lowerStr (s : List Char) : List Char := s.map pyLower

/-- `unicodedata.normalize("NFKC", s)`: the identity on the ASCII fragment. -/
def nfkc (s : List Char) : List Char := s

/-- Split on every character satisfying `P`, keeping empty chunks: the
behaviour of Python `str.split(sep)` for a one-character separator.  The
result always has at least one chunk. -/
def splitOnPred (P : Char → Bool) : List Char → List (List Char)
  | [] => [[]]
  | c :: cs =>
    let r := splitOnPred P cs
    if P c then [] :: r else (c :: r.headD []) :: r.tail

/-- Python `s.split()` with no argument: maximal whitespace-free words,
empty chunks dropped (leading/trailing whitespace contributes nothing). -/
def words (s : List Char) : List (List Char) :=
  (splitOnPred isPySpace s).filter (fun w => !w.isEmpty)

/-- Python `" ".join ws`. -/
def joinSpace : List (List Char) → List Char
  | [] => []
  | [w] => w
  | w :: ws => w ++ ' ' :: joinSpace ws

/-- `_norm` of app.py: `" ".join(str(s).strip().split()).lower()` after NFKC
canonicalization (the `strip` is subsumed by the no-argument `split`). -/
def _norm (s : List Char) : List Char :=
  lowerStr (joinSpace (words (nfkc s)))

/-- `_norm(s or "")` applied to a possibly missing value: `None` becomes the
empty string before normalization. -/
def normOpt (s : Option (List Char)) : List Char := _norm (s.getD [])

/-- `_tokens` of app.py: normalize, replace hyphens/underscores by spaces,
split into a set of words.  The set is modelled as a deduplicated list. -/
def tokens (s : List Char) : List (List Char) :=
  (words ((_norm s).map fun c => if c = '-' ∨ c = '_' then ' ' else c)).dedup

/-- `len(a & b)` for the token sets (both sides already deduplicated). -/
def overlapCount (a b : List (List Char)) : Nat :=
  (a.filter fun w => decide (w ∈ b)).length

/-- `pre` is a prefix of `s` (Python `s.startswith(pre)`). -/
def isPre : List Char → List Char → Bool
  | [], _ => true
  | _ :: _, [] => false
  | a :: as, b :: bs => decide (a = b) && isPre as bs

/-- `t` occurs as a contiguous substring of `s` (Python `t in s`). -/
def isSub (t : List Char) : List Char → Bool
  | [] => isPre t []
  | c :: rest => isPre t (c :: rest) || isSub t rest

/-- `suf` is a suffix of `s` (Python `s.endswith(suf)`). -/
def isSuffix (suf s : List Char) : Bool := isPre suf.reverse s.reverse

/-- Python `s.strip()` with no argument, over the modelled whitespace set. -/
def pyStrip (s : List Char) : List Char :=
  ((s.dropWhile isPySpace).reverse.dropWhile isPySpace).reverse

/-- The four lowered suffixes `_clean_url` strips a trailing slash after. -/
def slashSuffixes : List (List Char) :=
  [ ".jpg/".toList, ".jpeg/".toList, ".png/".toList, ".webp/".toList]

/-- `_clean_url` of load_manifest: strip, then drop one accidental trailing
slash if the lowered result ends in a known image extension plus `/`. -/
def cleanUrl (u : List Char) : List Char :=
  let v := pyStrip u
  if slashSuffixes.any (fun suf => isSuffix suf (lowerStr v)) then v.dropLast else v

/-- Python `s.split("|")`: split on pipes, keeping empty chunks. -/
def splitPipe (s : List Char) : List (List Char) :=
  splitOnPred (fun c => decide (c = '|')) s

/-- A raw manifest CSV row as handed to the index-building loop.  A field is
`none` when the column is missing or the CSV reader produced `None`; both
`r.get(..., "")` and `(... or "")` turn that into the empty string. -/
structure RawRow where
  company : Option (List Char)
  product : Option (List Char)
  ptype : Option (List Char)
  imageURLs : Option (List Char)

/-- The cleaned image-reference list of a row:
`[_clean_url(u) for u in (r.get("ImageURLs") or "").split("|") if _clean_url(u)]`. -/
def rowUrls (r : RawRow) : List (List Char) :=
  ((splitPipe (r.imageURLs.getD [])).map cleanUrl).filter (fun u => !u.isEmpty)

/-- Normalized company field of a row. -/
def rowC (r : RawRow) : List Char := normOpt r.company

/-- Normalized product field of a row. -/
def rowP (r : RawRow) : List Char := normOpt r.product

/-- Normalized type field of a row. -/
def rowT (r : RawRow) : List Char := normOpt r.ptype

/-- The acceptance test of the loop body: `if c and p and t and urls:`. -/
def rowAccepted (r : RawRow) : Bool :=
  !(rowC r).isEmpty && !(rowP r).isEmpty && !(rowT r).isEmpty && !(rowUrls r).isEmpty

/-- A manifest key: the `(company, product, type)` tuple. -/
abbrev Key := List Char × List Char × List Char

/-- The manifest dict, modelled as an insertion-ordered association list with
unique keys; iteration order is list order, exactly a Python dict's. -/
abbrev Manifest := List (Key × List (List Char))

/-- Dict lookup. -/
def dictFind (m : Manifest) (k : Key) : Option (List (List Char)) :=
  match m with
  | [] => none
  | (k', v) :: rest => if k' = k then some v else dictFind rest k

/-- Dict assignment `m[k] = v`: overwrite in place if the key is present
(keeping its position, as a Python dict does), else append. -/
def dictInsert (m : Manifest) (k : Key) (v : List (List Char)) : Manifest :=
  match m with
  | [] => [(k, v)]
  | (k', v') :: rest =>
    if k' = k then (k, v) :: rest else (k', v') :: dictInsert rest k v

/-- One iteration of the row loop of load_manifest: an accepted row inserts
the primary key `(c, p, t)` and the swapped alias key `(c, t, p)`, both
mapped to the same cleaned url list; any other row is dropped. -/
def loadStep (m : Manifest) (r : RawRow) : Manifest :=
  if rowAccepted r then
    dictInsert (dictInsert m (rowC r, rowP r, rowT r) (rowUrls r))
      (rowC r, rowT r, rowP r) (rowUrls r)
  else m

/-- The row loop of load_manifest, processing rows in order. -/
def loadInto (m : Manifest) : List RawRow → Manifest
  | [] => m
  | r :: rest => loadInto (loadStep m r) rest

/-- The manifest index built by load_manifest from the parsed CSV rows. -/
def load_manifest (rows : List RawRow) : Manifest := loadInto [] rows

/-- The soft type test of tier 2: `mt == t or mt.startswith(t) or t in mt`. -/
def softTypeMatch (mt t : List Char) : Bool :=
  decide (mt = t) || isPre t mt || isSub t mt

/-- Entry shares the query's normalized company and product: `mc == c and mp == p`. -/
def isCand (c p : List Char) (e : Key × List (List Char)) : Bool :=
  decide (e.1.1 = c) && decide (e.1.2.1 = p)

/-- Tier 2 of `_match_from_manifest`: first entry (in dict iteration order)
with the query's company and product whose type passes the soft test. -/
def tier2 (M : Manifest) (c p t : List Char) : Option (List (List Char)) :=
  (M.find? fun e => isCand c p e && softTypeMatch e.1.2.2 t).map (fun e => e.2)

/-- Token overlap of an entry's type with the query's token set. -/
def entryOv (tt : List (List Char)) (e : Key × List (List Char)) : Nat :=
  overlapCount tt (tokens e.1.2.2)

/-- The best/best_overlap accumulation loop of tier 3: an entry sharing
company and product replaces the accumulator iff its overlap is strictly
greater than the best seen so far. -/
def bestLoop (tt : List (List Char)) (c p : List Char) :
    Manifest → Option (List (List Char)) × Nat → Option (List (List Char)) × Nat
  | [], acc => acc
  | e :: rest, acc =>
    if isCand c p e then
      if acc.2 < entryOv tt e then bestLoop tt c p rest (some e.2, entryOv tt e)
      else bestLoop tt c p rest acc
    else bestLoop tt c p rest acc

/-- Tier 3 of `_match_from_manifest`: token-overlap scoring; the final
`if best and best_overlap > 0` keeps the winner only if it is a non-empty
list and its overlap is positive. -/
def tier3 (M : Manifest) (c p t : List Char) : Option (List (List Char)) :=
  match bestLoop (tokens t) c p M (none, 0) with
  | (some urls, ov) => if !urls.isEmpty && decide (0 < ov) then some urls else none
  | (none, _) => none

/-- Tier 4 of `_match_from_manifest`: first entry sharing company and
product, regardless of type. -/
def tier4 (M : Manifest) (c p : List Char) : Option (List (List Char)) :=
  (M.find? fun e => isCand c p e).map (fun e => e.2)

/-- `_match_from_manifest(c, p, t)`: exact dict hit, else soft type match,
else token overlap, else any company+product entry, else the empty list. -/
def matchFromManifest (M : Manifest) (c p t : List Char) : List (List Char) :=
  match dictFind M (c, p, t) with
  | some urls => urls
  | none =>
    match tier2 M c p t with
    | some urls => urls
    | none =>
      match tier3 M c p t with
      | some urls => urls
      | none => (tier4 M c p).getD []

/-- A node of the local image tree.  `dir name none` is a directory whose
enumeration (`iterdir`) raises; `broken name` is an entry whose stat
(`p.is_dir()`) raises, so `exists()` on it reports false. -/
inductive FSNode where
  | file (name : List Char)
  | broken (name : List Char)
  | dir (name : List Char) (children : Option (List FSNode))

/-- The entry's file name (`p.name`). -/
def FSNode.name : FSNode → List Char
  | .file n => n
  | .broken n => n
  | .dir n _ => n

/-- The per-child test of `_child_caseless`:
`p.is_dir() and _norm(p.name) == wanted_n`, with a stat failure caught by
the surrounding `except Exception: continue`. -/
def isDirNamed (wn : List Char) (ch : FSNode) : Bool :=
  match ch with
  | .dir n _ => decide (_norm n = wn)
  | _ => false

/-- `_child_caseless(parent, wanted)`.  A non-directory (or inaccessible)
parent yields `ok none`; a parent whose enumeration raises propagates the
exception (`error`), because the `try` block sits inside the loop body and
does not cover `parent.iterdir()` itself; otherwise the first child
directory with matching normalized name is returned. -/
def child_caseless (parent : FSNode) (wanted : List Char) : Except Unit (Option FSNode) :=
  match parent with
  | .file _ => .ok none
  | .broken _ => .ok none
  | .dir _ none => .error ()
  | .dir _ (some children) => .ok (children.find? (isDirNamed (_norm wanted)))

/-- `resolve_caseless_path(base_dir, *segments)`: descend one segment at a
time, threading the textual path of the current directory.  `ok none` is
the `None` ("Absent") result; `error` is a raised exception. -/
def resolve_caseless_path (basePath : List Char) (base : FSNode) :
    List (List Char) → Except Unit (Option (List Char × FSNode))
  | [] => .ok (some (basePath, base))
  | s :: rest =>
    match child_caseless base s with
    | .error e => .error e
    | .ok none => .ok none
    | .ok (some nxt) => resolve_caseless_path (basePath ++ '/' :: nxt.name) nxt rest

/-- Code-point lexicographic order on strings: the order Python `sorted`
uses on the path objects of a single directory (their shared directory
prefix makes it the order of the file names). -/
def lexLe : List Char → List Char → Bool
  | [], _ => true
  | _ :: _, [] => false
  | a :: as, b :: bs => if a < b then true else if b < a then false else lexLe as bs

/-- Ordered insertion for the model of `sorted`. -/
def insertLe (x : List Char) : List (List Char) → List (List Char)
  | [] => [x]
  | y :: ys => if lexLe x y then x :: y :: ys else y :: insertLe x ys

/-- The model of Python `sorted` on the directory's file names. -/
def sortNames : List (List Char) → List (List Char)
  | [] => []
  | x :: xs => insertLe x (sortNames xs)

/-- Index of the last `.` in a file name, if any. -/
def lastDotIdx : List Char → Option Nat
  | [] => none
  | c :: cs =>
    match lastDotIdx cs with
    | some i => some (i + 1)
    | none => if c = '.' then some 0 else none

/-- `PurePath.suffix`: the part of the name from its last dot, provided that
dot is neither the leading nor the trailing character. -/
def pySuffix (name : List Char) : List Char :=
  match lastDotIdx name with
  | some i => if 0 < i ∧ i + 1 < name.length then name.drop i else []
  | none => []

/-- The fixed extension allow-list of the filesystem fallback. -/
def allowedExts : List (List Char) :=
  [ ".jpg".toList, ".jpeg".toList, ".png".toList, ".webp".toList]

/-- The collection loop over the resolved folder:
`for file in sorted(folder.iterdir()): if file.suffix.lower() in (...):
images.append(str(file))`.  Enumerating the folder again can raise; a folder
whose stat fails reports `exists()` false and yields no images. -/
def listFolder (path : List Char) (folder : FSNode) : Except Unit (List (List Char)) :=
  match folder with
  | .broken _ => .ok []
  | .file _ => .error ()
  | .dir _ none => .error ()
  | .dir _ (some children) =>
    .ok (((sortNames (children.map FSNode.name)).filter
      (fun n => decide (lowerStr (pySuffix n) ∈ allowedExts))).map
        (fun n => path ++ '/' :: n))

/-- The filesystem fallback tier of get_image_list: case-insensitive descent
`images/Company/Product/Type` from the image base, then the collection loop. -/
def fsFallback (basePath : List Char) (base : FSNode)
    (company product ptype : List Char) : Except Unit (List (List Char)) :=
  match resolve_caseless_path basePath base [company, product, ptype] with
  | .error e => .error e
  | .ok none => .ok []
  | .ok (some (path, folder)) => listFolder path folder

/-- `get_image_list(company, product, type)`: manifest cascade in the given
ordering, the same cascade with product and type swapped, then the local
filesystem fallback.  `ok l` is a returned list, `error` a raised exception. -/
def get_image_list (M : Manifest) (basePath : List Char) (base : FSNode)
    (company product ptype : List Char) : Except Unit (List (List Char)) :=
  let c := _norm company
  let p := _norm product
  let t := _norm ptype
  let urls := matchFromManifest M c p t
  if urls = [] then
    let urls2 := matchFromManifest M c t p
    if urls2 = [] then fsFallback basePath base company product ptype
    else .ok urls2
  else .ok urls

/-- Concrete fixture: the single-row manifest `{(A,B,"sofa"): ["x.jpg"]}`. -/
def rowAB : RawRow :=
  ⟨some ( "A".toList), some ( "B".toList), some ( "sofa".toList), some ( "x.jpg".toList)⟩

/-- Index built from `rowAB` (primary key plus swapped alias). -/
def manifestAB : Manifest := load_manifest [rowAB]

/-- Concrete fixture: the manifest row `Ditre Italia, Alta Sofa, sofa, u1|u2`. -/
def rowDitre : RawRow :=
  ⟨some ( "Ditre Italia".toList), some ( "Alta Sofa".toList),
   some ( "sofa".toList), some ( "u1|u2".toList)⟩

/-- Index built from `rowDitre`. -/
def manifestDitre : Manifest := load_manifest [rowDitre]

/-- Concrete fixture: a `coffee table` row for company a, product b. -/
def rowCoffee : RawRow :=
  ⟨some ( "a".toList), some ( "b".toList), some ( "coffee table".toList), some ( "c1".toList)⟩

/-- Concrete fixture: a `side table` row for company a, product b. -/
def rowSide : RawRow :=
  ⟨some ( "a".toList), some ( "b".toList), some ( "side table".toList), some ( "s1".toList)⟩

/-- Tie fixture: coffee-table row first, side-table row second. -/
def manifestTie : Manifest := load_manifest [rowCoffee, rowSide]

/-- Tie fixture with the two rows in the opposite order. -/
def manifestTieRev : Manifest := load_manifest [rowSide, rowCoffee]

/-- An existing, empty image base directory. -/
def fsEmpty : FSNode := FSNode.dir ( "images".toList) (some [])

/-- An image base directory whose enumeration raises. -/
def fsBroken : FSNode := FSNode.dir ( "images".toList) none

/-- The textual path of the image base directory. -/
def imgBase : List Char := "images".toList

/-- A concrete image tree `images/A/B/C/{b.png, a.jpg, c.txt}` for the
filesystem-fallback fixtures. -/
def fsTree : FSNode :=
  FSNode.dir ( "images".toList) (some
    [FSNode.dir ( "A".toList) (some
      [FSNode.dir ( "B".toList) (some
        [FSNode.dir ( "C".toList) (some
          [FSNode.file ( "b.png".toList), FSNode.file ( "a.jpg".toList),
           FSNode.file ( "c.txt".toList)])])])])

/-- The `C` leaf directory of `fsTree`. -/
def fsLeafC : FSNode :=
  FSNode.dir ( "C".toList) (some
    [FSNode.file ( "b.png".toList), FSNode.file ( "a.jpg".toList),
     FSNode.file ( "c.txt".toList)])

/-- Invariant of every pair stored in the manifest index: all three key
fields non-empty, and a non-empty url list all of whose entries are
non-empty and contain a non-whitespace character. -/
def goodPair (kv : Key × List (List Char)) : Prop :=
  kv.1.1 ≠ [] ∧ kv.1.2.1 ≠ [] ∧ kv.1.2.2 ≠ [] ∧ kv.2 ≠ [] ∧
    ∀ u ∈ kv.2, u ≠ [] ∧ ∃ ch ∈ u, isPySpace ch = false

/-- Packing a valid code point and reading it back is the identity. -/
theorem toNat_ofNat_valid {n : Nat} (h : n < 55296) : (Char.ofNat n).toNat = n := by
  have hv : n.isValidChar := Or.inl h
  simp [Char.ofNat, dif_pos hv, Char.ofNatAux, Char.toNat, UInt32.toNat]

/-- Code point of a lowered character. -/
theorem pyLower_toNat (c : Char) :
    (pyLower c).toNat = if 65 ≤ c.toNat ∧ c.toNat ≤ 90 then c.toNat + 32 else c.toNat := by
  by_cases h : 65 ≤ c.toNat ∧ c.toNat ≤ 90
  · simp [pyLower, h, toNat_ofNat_valid (show c.toNat + 32 < 55296 by omega)]
  · simp [pyLower, h]

/-- A character outside A-Z is unchanged by lowering. -/
theorem pyLower_eq_of_not_upper {c : Char} (h : ¬(65 ≤ c.toNat ∧ c.toNat ≤ 90)) :
    pyLower c = c := by
  simp [pyLower, h]

/-- Lowering is idempotent on characters. -/
theorem pyLower_idem (c : Char) : pyLower (pyLower c) = pyLower c := by
  by_cases h : 65 ≤ c.toNat ∧ c.toNat ≤ 90
  · have h1 : (pyLower c).toNat = c.toNat + 32 := by simp [pyLower_toNat, h]
    exact pyLower_eq_of_not_upper (by omega)
  · rw [pyLower_eq_of_not_upper h]
    exact pyLower_eq_of_not_upper h

/-- Lowering preserves whitespace-ness of a character. -/
theorem isPySpace_pyLower (c : Char) : isPySpace (pyLower c) = isPySpace c := by
  by_cases h : 65 ≤ c.toNat ∧ c.toNat ≤ 90
  · have h1 : (pyLower c).toNat = c.toNat + 32 := by simp [pyLower_toNat, h]
    unfold isPySpace
    rw [h1, decide_eq_decide]
    omega
  · rw [pyLower_eq_of_not_upper h]

/-- The chunk list produced by a split is never empty. -/
theorem splitOnPred_ne_nil (P : Char → Bool) (s : List Char) : splitOnPred P s ≠ [] := by
  induction s with
  | nil => simp [splitOnPred]
  | cons c cs ih =>
    simp only [splitOnPred]
    split <;> simp

/-- A separator-free block prepends onto the first chunk of the rest. -/
theorem splitOnPred_append_nosat (P : Char → Bool) (w s : List Char)
    (h : ∀ c ∈ w, P c = false) :
    splitOnPred P (w ++ s) =
      (w ++ (splitOnPred P s).headD []) :: (splitOnPred P s).tail := by
  induction w with
  | nil =>
    cases hs : splitOnPred P s with
    | nil => exact absurd hs (splitOnPred_ne_nil P s)
    | cons a t => simp [hs]
  | cons c w' ih =>
    have hc : P c = false := h c (by simp)
    have hrest : ∀ x ∈ w', P x = false := fun x hx => h x (by simp [hx])
    simp [splitOnPred, hc, ih hrest]

/-- Splitting an entirely separator-free string yields that single chunk. -/
theorem splitOnPred_nosat (P : Char → Bool) (w : List Char)
    (h : ∀ c ∈ w, P c = false) : splitOnPred P w = [w] := by
  have := splitOnPred_append_nosat P w [] h
  simpa [splitOnPred] using this

/-- Every character of every chunk of a split fails the separator test. -/
theorem splitOnPred_chunk_nosat (P : Char → Bool) :
    ∀ s, ∀ w ∈ splitOnPred P s, ∀ c ∈ w, P c = false := by
  intro s
  induction s with
  | nil =>
    intro w hw c hc
    simp [splitOnPred] at hw
    subst hw
    simp at hc
  | cons a s' ih =>
    intro w hw c hc
    by_cases ha : P a = true
    · simp [splitOnPred, ha] at hw
      rcases hw with h1 | h2
      · subst h1; simp at hc
      · exact ih w h2 c hc
    · have ha' : P a = false := by simpa using ha
      simp [splitOnPred, ha'] at hw
      rcases hw with h1 | h2
      · subst h1
        rcases List.mem_cons.mp hc with rfl | hmem
        · exact ha'
        · cases hr : splitOnPred P s' with
          | nil => exact absurd hr (splitOnPred_ne_nil P s')
          | cons b t =>
            rw [hr] at hmem
            exact ih b (by simp [hr]) c hmem
      · cases hr : splitOnPred P s' with
        | nil => exact absurd hr (splitOnPred_ne_nil P s')
        | cons b t =>
          rw [hr] at h2
          exact ih w (by rw [hr]; exact List.mem_cons_of_mem b (by simpa using h2)) c hc

/-- Every word produced by `words` is non-empty and whitespace-free. -/
theorem words_good (s : List Char) :
    ∀ w ∈ words s, w ≠ [] ∧ ∀ c ∈ w, isPySpace c = false := by
  intro w hw
  unfold words at hw
  have hmem := List.mem_filter.mp hw
  refine ⟨by simpa using hmem.2, ?_⟩
  exact splitOnPred_chunk_nosat isPySpace s w hmem.1

/-- A space character is whitespace. -/
theorem isPySpace_space : isPySpace ' ' = true := by decide

/-- Splitting a single whitespace-free non-empty word gives it back. -/
theorem words_single (w : List Char) (hne : w ≠ [])
    (hns : ∀ c ∈ w, isPySpace c = false) : words w = [w] := by
  unfold words
  rw [splitOnPred_nosat isPySpace w hns]
  simp [hne]

/-- Re-splitting a space-joined list of non-empty whitespace-free words
recovers exactly that list. -/
theorem words_joinSpace (ws : List (List Char))
    (h : ∀ w ∈ ws, w ≠ [] ∧ ∀ c ∈ w, isPySpace c = false) :
    words (joinSpace ws) = ws := by
  induction ws with
  | nil => simp [joinSpace, words, splitOnPred]
  | cons w ws' ih =>
    cases ws' with
    | nil =>
      obtain ⟨hw, hns⟩ := h w (by simp)
      simpa [joinSpace] using words_single w hw hns
    | cons w2 ws'' =>
      obtain ⟨hw, hns⟩ := h w (by simp)
      have hrest : ∀ x ∈ w2 :: ws'', x ≠ [] ∧ ∀ c ∈ x, isPySpace c = false :=
        fun x hx => h x (by simp [hx])
      have hjoin : joinSpace (w :: w2 :: ws'') = w ++ ' ' :: joinSpace (w2 :: ws'') := rfl
      rw [hjoin]
      unfold words
      rw [splitOnPred_append_nosat isPySpace w (' ' :: joinSpace (w2 :: ws'')) hns]
      have hsp : splitOnPred isPySpace (' ' :: joinSpace (w2 :: ws'')) =
          [] :: splitOnPred isPySpace (joinSpace (w2 :: ws'')) := by
        simp [splitOnPred, isPySpace_space]
      rw [hsp]
      simp only [List.headD_cons, List.tail_cons, List.append_nil]
      have ihx := ih hrest
      unfold words at ihx
      simp [hw, ihx]

/-- Mapping a whitespace-preserving character map commutes with splitting. -/
theorem splitOnPred_map_pyLower (s : List Char) :
    splitOnPred isPySpace (s.map pyLower) =
      (splitOnPred isPySpace s).map (List.map pyLower) := by
  induction s with
  | nil => simp [splitOnPred]
  | cons c cs ih =>
    by_cases hc : isPySpace c = true
    · have hc' : isPySpace (pyLower c) = true := by rw [isPySpace_pyLower]; exact hc
      simp [splitOnPred, hc, hc', ih]
    · have hcf : isPySpace c = false := by simpa using hc
      have hcf' : isPySpace (pyLower c) = false := by rw [isPySpace_pyLower]; exact hcf
      cases hr : splitOnPred isPySpace cs with
      | nil => exact absurd hr (splitOnPred_ne_nil isPySpace cs)
      | cons a t => simp [splitOnPred, hcf, hcf', ih, hr]

/-- Lowering a string commutes with word splitting. -/
theorem words_map_pyLower (s : List Char) :
    words (s.map pyLower) = (words s).map (List.map pyLower) := by
  unfold words
  rw [splitOnPred_map_pyLower, List.filter_map]
  congr 1
  apply List.filter_congr
  intro w _
  cases w <;> simp

/-- Lowering commutes with joining by spaces (a space lowers to itself). -/
theorem joinSpace_map_pyLower (ws : List (List Char)) :
    joinSpace (ws.map (List.map pyLower)) = (joinSpace ws).map pyLower := by
  induction ws with
  | nil => simp [joinSpace]
  | cons w ws' ih =>
    cases ws' with
    | nil => simp [joinSpace]
    | cons w2 ws'' =>
      have h1 : joinSpace (w :: w2 :: ws'') = w ++ ' ' :: joinSpace (w2 :: ws'') := rfl
      have h2 : joinSpace (List.map pyLower w :: List.map pyLower w2 ::
          List.map (List.map pyLower) ws'') =
          List.map pyLower w ++ ' ' ::
            joinSpace (List.map pyLower w2 :: List.map (List.map pyLower) ws'') := rfl
      have hsp : pyLower ' ' = ' ' := by decide
      simp only [List.map_cons] at ih ⊢
      rw [h1, h2, ih]
      simp [hsp]

/-- Normalization is idempotent. -/
theorem norm_twice (s : List Char) : _norm (_norm s) = _norm s := by
  unfold _norm nfkc lowerStr
  rw [words_map_pyLower, words_joinSpace (words s) (words_good s), joinSpace_map_pyLower]
  rw [List.map_map]
  exact List.map_congr_left fun c _ => by simpa using pyLower_idem c

/-- Looking up the key just assigned yields the assigned value. -/
theorem dictFind_insert_self (m : Manifest) (k : Key) (v : List (List Char)) :
    dictFind (dictInsert m k v) k = some v := by
  induction m with
  | nil => simp [dictInsert, dictFind]
  | cons kv rest ih =>
    obtain ⟨k', v'⟩ := kv
    by_cases h : k' = k
    · simp [dictInsert, dictFind, h]
    · simp [dictInsert, dictFind, h, ih]

/-- Assigning one key leaves lookups of other keys unchanged. -/
theorem dictFind_insert_other (m : Manifest) {k k' : Key} (v : List (List Char))
    (h : k' ≠ k) : dictFind (dictInsert m k v) k' = dictFind m k' := by
  induction m with
  | nil => simp [dictInsert, dictFind, Ne.symm h]
  | cons kv rest ih =>
    obtain ⟨k0, v0⟩ := kv
    by_cases h0 : k0 = k
    · subst h0
      simp [dictInsert, dictFind, Ne.symm h]
    · simp [dictInsert, dictFind, h0, ih]

/-- Every pair of the dict after an assignment is the assigned pair or one
already present. -/
theorem mem_dictInsert {m : Manifest} {k : Key} {v : List (List Char)}
    {e : Key × List (List Char)} (h : e ∈ dictInsert m k v) : e = (k, v) ∨ e ∈ m := by
  induction m with
  | nil => simpa [dictInsert] using h
  | cons kv rest ih =>
    obtain ⟨k0, v0⟩ := kv
    by_cases h0 : k0 = k
    · subst h0
      simp [dictInsert] at h
      rcases h with h | h
      · exact Or.inl (by simp [h])
      · exact Or.inr (by simp [h])
    · simp [dictInsert, h0] at h
      rcases h with h | h
      · exact Or.inr (by simp [h])
      · rcases ih h with h' | h'
        · exact Or.inl h'
        · exact Or.inr (by simp [h'])

/-- A successful lookup returns a pair stored in the dict. -/
theorem dictFind_mem {m : Manifest} {k : Key} {v : List (List Char)}
    (h : dictFind m k = some v) : (k, v) ∈ m := by
  induction m with
  | nil => simp [dictFind] at h
  | cons kv rest ih =>
    obtain ⟨k0, v0⟩ := kv
    by_cases h0 : k0 = k
    · subst h0
      simp [dictFind] at h
      simp [h]
    · rw [dictFind, if_neg h0] at h
      exact List.mem_cons_of_mem _ (ih h)

/-- Characterization of the prefix test. -/
theorem isPre_iff (p l : List Char) : isPre p l = true ↔ ∃ rest, l = p ++ rest := by
  induction p generalizing l with
  | nil => simp [isPre]
  | cons a as ih =>
    cases l with
    | nil => simp [isPre]
    | cons b bs =>
      simp only [isPre, Bool.and_eq_true, decide_eq_true_eq, ih]
      constructor
      · rintro ⟨rfl, rest, rfl⟩
        exact ⟨rest, rfl⟩
      · rintro ⟨rest, h⟩
        injection h with h1 h2
        exact ⟨h1.symm, rest, h2⟩

/-- Characterization of the suffix test. -/
theorem isSuffix_iff (suf s : List Char) : isSuffix suf s = true ↔ ∃ w, s = w ++ suf := by
  unfold isSuffix
  rw [isPre_iff]
  constructor
  · rintro ⟨rest, h⟩
    refine ⟨rest.reverse, ?_⟩
    have := congrArg List.reverse h
    simpa using this
  · rintro ⟨w, rfl⟩
    exact ⟨w.reverse, by simp⟩

/-- The head surviving a `dropWhile` fails the predicate. -/
theorem dropWhile_head_false {P : Char → Bool} {l : List Char} {c : Char} {rest : List Char}
    (h : l.dropWhile P = c :: rest) : P c = false := by
  induction l with
  | nil => simp [List.dropWhile] at h
  | cons a l' ih =>
    cases ha : P a with
    | true =>
      rw [List.dropWhile_cons, ha] at h
      exact ih (by simpa using h)
    | false =>
      rw [List.dropWhile_cons, ha] at h
      simp at h
      obtain ⟨h1, _⟩ := h
      subst h1
      exact ha

/-- A non-empty stripped string contains a non-whitespace character. -/
theorem pyStrip_nonws {s : List Char} (h : pyStrip s ≠ []) :
    ∃ ch ∈ pyStrip s, isPySpace ch = false := by
  unfold pyStrip at h ⊢
  cases hx : (s.dropWhile isPySpace).reverse.dropWhile isPySpace with
  | nil => rw [hx] at h; simp at h
  | cons c rest =>
    have hc : isPySpace c = false := dropWhile_head_false hx
    exact ⟨c, by simp, hc⟩

/-- A character lowering to a non-whitespace character is non-whitespace. -/
theorem nonws_of_pyLower {b d : Char} (h : pyLower b = d) (hd : isPySpace d = false) :
    isPySpace b = false := by
  rw [← isPySpace_pyLower b, h]
  exact hd

/-- Splitting a string along a decomposition of its lowering. -/
theorem lowerStr_append_split {v w suf : List Char} (h : lowerStr v = w ++ suf) :
    ∃ v₁ v₂, v = v₁ ++ v₂ ∧ lowerStr v₁ = w ∧ lowerStr v₂ = suf := by
  induction w generalizing v with
  | nil => exact ⟨[], v, rfl, rfl, by simpa using h⟩
  | cons a w' ih =>
    cases v with
    | nil => simp [lowerStr] at h
    | cons x v' =>
      simp only [lowerStr, List.map_cons, List.cons_append] at h
      injection h with h1 h2
      obtain ⟨v₁, v₂, rfl, hb, hc⟩ := ih (v := v') h2
      refine ⟨x :: v₁, v₂, rfl, ?_, hc⟩
      simp only [lowerStr, List.map_cons] at hb ⊢
      rw [h1, hb]

/-- A string whose lowering ends in two characters, the first of them
non-whitespace, keeps a non-whitespace character after dropping its last
character. -/
theorem nonws_in_dropLast {v u : List Char} {d1 d2 : Char}
    (h : lowerStr v = u ++ [d1, d2]) (hd : isPySpace d1 = false) :
    ∃ ch ∈ v.dropLast, isPySpace ch = false := by
  obtain ⟨v₁, v₂, rfl, hv₁, hv₂⟩ := lowerStr_append_split h
  rcases v₂ with _ | ⟨b1, _ | ⟨b2, _ | ⟨b3, r⟩⟩⟩
  · simp [lowerStr] at hv₂
  · simp only [lowerStr, List.map_cons, List.map_nil] at hv₂
    injection hv₂ with e1 htail
    injection htail
  · simp only [lowerStr, List.map_cons, List.map_nil] at hv₂
    injection hv₂ with e1 htail
    have hdl : (v₁ ++ [b1, b2]).dropLast = v₁ ++ [b1] := by simp
    rw [hdl]
    exact ⟨b1, by simp, nonws_of_pyLower e1 hd⟩
  · simp [lowerStr] at hv₂

/-- A non-empty cleaned url contains a non-whitespace character. -/
theorem cleanUrl_nonws {x : List Char} (h : cleanUrl x ≠ []) :
    ∃ ch ∈ cleanUrl x, isPySpace ch = false := by
  unfold cleanUrl at h ⊢
  by_cases hm : slashSuffixes.any (fun suf => isSuffix suf (lowerStr (pyStrip x))) = true
  · rw [if_pos hm] at h ⊢
    obtain ⟨suf, hsuf_mem, hsuf⟩ := List.any_eq_true.mp hm
    obtain ⟨w, hw⟩ := (isSuffix_iff suf (lowerStr (pyStrip x))).mp hsuf
    have h4 : suf = ( ".jpg/".toList) ∨ suf = ( ".jpeg/".toList) ∨
        suf = ( ".png/".toList) ∨ suf = ( ".webp/".toList) := by
      simpa [slashSuffixes] using hsuf_mem
    rcases h4 with rfl | rfl | rfl | rfl
    · exact nonws_in_dropLast (u := w ++ ( ".jp".toList))
        (by rw [hw, List.append_assoc]; rfl) (by decide)
    · exact nonws_in_dropLast (u := w ++ ( ".jpe".toList))
        (by rw [hw, List.append_assoc]; rfl) (by decide)
    · exact nonws_in_dropLast (u := w ++ ( ".pn".toList))
        (by rw [hw, List.append_assoc]; rfl) (by decide)
    · exact nonws_in_dropLast (u := w ++ ( ".web".toList))
        (by rw [hw, List.append_assoc]; rfl) (by decide)
  · rw [if_neg hm] at h ⊢
    exact pyStrip_nonws h

/-- Every cleaned reference of a row is non-empty with a non-whitespace
character. -/
theorem rowUrls_mem {r : RawRow} {u : List Char} (hu : u ∈ rowUrls r) :
    u ≠ [] ∧ ∃ ch ∈ u, isPySpace ch = false := by
  unfold rowUrls at hu
  have h1 := List.mem_filter.mp hu
  obtain ⟨x, _, rfl⟩ := List.mem_map.mp h1.1
  have hne : cleanUrl x ≠ [] := by simpa using h1.2
  exact ⟨hne, cleanUrl_nonws hne⟩

/-- Unpacking the four conjuncts of row acceptance. -/
theorem rowAccepted_parts {r : RawRow} (h : rowAccepted r = true) :
    rowC r ≠ [] ∧ rowP r ≠ [] ∧ rowT r ≠ [] ∧ rowUrls r ≠ [] := by
  unfold rowAccepted at h
  simp only [Bool.and_eq_true, Bool.not_eq_true', List.isEmpty_eq_false] at h
  exact ⟨h.1.1.1, h.1.1.2, h.1.2, h.2⟩

/-- One loop iteration preserves the stored-pair invariant. -/
theorem loadStep_good {m : Manifest} {r : RawRow} (hm : ∀ kv ∈ m, goodPair kv) :
    ∀ kv ∈ loadStep m r, goodPair kv := by
  intro kv hkv
  unfold loadStep at hkv
  by_cases ha : rowAccepted r = true
  · rw [if_pos ha] at hkv
    obtain ⟨hc, hp, ht, hu⟩ := rowAccepted_parts ha
    have hgood1 : goodPair ((rowC r, rowP r, rowT r), rowUrls r) :=
      ⟨hc, hp, ht, hu, fun _ hu' => rowUrls_mem hu'⟩
    have hgood2 : goodPair ((rowC r, rowT r, rowP r), rowUrls r) :=
      ⟨hc, ht, hp, hu, fun _ hu' => rowUrls_mem hu'⟩
    rcases mem_dictInsert hkv with rfl | hkv'
    · exact hgood2
    · rcases mem_dictInsert hkv' with rfl | hkv''
      · exact hgood1
      · exact hm kv hkv''
  · rw [if_neg ha] at hkv
    exact hm kv hkv

/-- The whole loop preserves the stored-pair invariant. -/
theorem loadInto_good : ∀ (rows : List RawRow) (m : Manifest),
    (∀ kv ∈ m, goodPair kv) → ∀ kv ∈ loadInto m rows, goodPair kv := by
  intro rows
  induction rows with
  | nil =>
    intro m hm kv hkv
    exact hm kv (by simpa [loadInto] using hkv)
  | cons r rest ih =>
    intro m hm kv hkv
    rw [loadInto] at hkv
    exact ih (loadStep m r) (loadStep_good hm) kv hkv

/-- Every pair of a built index satisfies the invariant. -/
theorem load_manifest_good (rows : List RawRow) :
    ∀ kv ∈ load_manifest rows, goodPair kv :=
  loadInto_good rows [] (by simp)

/-- Every successful lookup in a built index satisfies the invariant. -/
theorem load_manifest_find_good {rows : List RawRow} {k : Key} {v : List (List Char)}
    (h : dictFind (load_manifest rows) k = some v) : goodPair (k, v) :=
  load_manifest_good rows (k, v) (dictFind_mem h)

/-- A successful tier-2 result is the list of a stored entry with matching
company, product and soft type test. -/
theorem tier2_some {M : Manifest} {c p t : List Char} {urls : List (List Char)}
    (h : tier2 M c p t = some urls) :
    ∃ e ∈ M, isCand c p e = true ∧ softTypeMatch e.1.2.2 t = true ∧ urls = e.2 := by
  unfold tier2 at h
  cases hf : M.find? (fun e => isCand c p e && softTypeMatch e.1.2.2 t) with
  | none => rw [hf] at h; simp at h
  | some e =>
    rw [hf] at h
    simp only [Option.map_some'] at h
    have hmem := List.mem_of_find?_eq_some hf
    have hp := List.find?_some hf
    simp only [Bool.and_eq_true] at hp
    exact ⟨e, hmem, hp.1, hp.2, (Option.some_inj.mp h).symm⟩

/-- A successful tier-4 result is the list of a stored entry with matching
company and product. -/
theorem tier4_some {M : Manifest} {c p : List Char} {urls : List (List Char)}
    (h : tier4 M c p = some urls) :
    ∃ e ∈ M, isCand c p e = true ∧ urls = e.2 := by
  unfold tier4 at h
  cases hf : M.find? (fun e => isCand c p e) with
  | none => rw [hf] at h; simp at h
  | some e =>
    rw [hf] at h
    simp only [Option.map_some'] at h
    exact ⟨e, List.mem_of_find?_eq_some hf, List.find?_some hf,
      (Option.some_inj.mp h).symm⟩

/-- The best-overlap accumulator never decreases. -/
theorem bestLoop_ge (tt : List (List Char)) (c p : List Char) :
    ∀ (L : Manifest) (acc : Option (List (List Char)) × Nat),
      acc.2 ≤ (bestLoop tt c p L acc).2 := by
  intro L
  induction L with
  | nil => intro acc; exact Nat.le_refl _
  | cons e rest ih =>
    intro acc
    unfold bestLoop
    by_cases hc : isCand c p e = true
    · rw [if_pos hc]
      by_cases hlt : acc.2 < entryOv tt e
      · rw [if_pos hlt]
        exact Nat.le_trans (Nat.le_of_lt hlt) (ih (some e.2, entryOv tt e))
      · rw [if_neg hlt]
        exact ih acc
    · rw [if_neg hc]
      exact ih acc

/-- The final best overlap dominates every candidate's overlap. -/
theorem bestLoop_ge_cand (tt : List (List Char)) (c p : List Char) :
    ∀ (L : Manifest) (acc : Option (List (List Char)) × Nat)
      (e : Key × List (List Char)), e ∈ L → isCand c p e = true →
      entryOv tt e ≤ (bestLoop tt c p L acc).2 := by
  intro L
  induction L with
  | nil => intro acc e he; simp at he
  | cons e' rest ih =>
    intro acc e he hcand
    unfold bestLoop
    rcases List.mem_cons.mp he with rfl | hmem
    · rw [if_pos hcand]
      by_cases hlt : acc.2 < entryOv tt e
      · rw [if_pos hlt]
        exact Nat.le_trans (Nat.le_refl _) (bestLoop_ge tt c p rest (some e.2, entryOv tt e))
      · rw [if_neg hlt]
        exact Nat.le_trans (Nat.le_of_not_lt hlt) (bestLoop_ge tt c p rest acc)
    · by_cases hc' : isCand c p e' = true
      · rw [if_pos hc']
        by_cases hlt : acc.2 < entryOv tt e'
        · rw [if_pos hlt]; exact ih _ e hmem hcand
        · rw [if_neg hlt]; exact ih _ e hmem hcand
      · rw [if_neg hc']
        exact ih _ e hmem hcand

/-- The loop either leaves the accumulator untouched or settles on some
candidate with a strictly improved overlap. -/
theorem bestLoop_cases (tt : List (List Char)) (c p : List Char) :
    ∀ (L : Manifest) (acc : Option (List (List Char)) × Nat),
      bestLoop tt c p L acc = acc ∨
      ∃ e ∈ L, isCand c p e = true ∧ (bestLoop tt c p L acc).1 = some e.2 ∧
        (bestLoop tt c p L acc).2 = entryOv tt e ∧ acc.2 < entryOv tt e := by
  intro L
  induction L with
  | nil => intro acc; exact Or.inl rfl
  | cons e' rest ih =>
    intro acc
    unfold bestLoop
    by_cases hc : isCand c p e' = true
    · rw [if_pos hc]
      by_cases hlt : acc.2 < entryOv tt e'
      · rw [if_pos hlt]
        rcases ih (some e'.2, entryOv tt e') with heq | ⟨e, hmem, hcand, h1, h2, h3⟩
        · refine Or.inr ⟨e', by simp, hc, ?_, ?_, hlt⟩
          · rw [heq]
          · rw [heq]
        · refine Or.inr ⟨e, by simp [hmem], hcand, h1, h2, ?_⟩
          exact Nat.lt_trans hlt h3
      · rw [if_neg hlt]
        rcases ih acc with heq | ⟨e, hmem, hcand, h1, h2, h3⟩
        · exact Or.inl heq
        · exact Or.inr ⟨e, by simp [hmem], hcand, h1, h2, h3⟩
    · rw [if_neg hc]
      rcases ih acc with heq | ⟨e, hmem, hcand, h1, h2, h3⟩
      · exact Or.inl heq
      · exact Or.inr ⟨e, by simp [hmem], hcand, h1, h2, h3⟩

/-- If every candidate's overlap is zero the loop never updates. -/
theorem bestLoop_all_zero (tt : List (List Char)) (c p : List Char) :
    ∀ (L : Manifest) (acc : Option (List (List Char)) × Nat),
      (∀ e ∈ L, isCand c p e = true → entryOv tt e = 0) →
      bestLoop tt c p L acc = acc := by
  intro L
  induction L with
  | nil => intro acc _; rfl
  | cons e' rest ih =>
    intro acc h
    unfold bestLoop
    by_cases hc : isCand c p e' = true
    · rw [if_pos hc]
      have h0 : entryOv tt e' = 0 := h e' (by simp) hc
      have hnlt : ¬acc.2 < entryOv tt e' := by omega
      rw [if_neg hnlt]
      exact ih acc fun e he hce => h e (by simp [he]) hce
    · rw [if_neg hc]
      exact ih acc fun e he hce => h e (by simp [he]) hce

/-- Tier 3 yields nothing when every candidate has zero token overlap. -/
theorem tier3_none_of_zero {M : Manifest} {c p t : List Char}
    (h : ∀ e ∈ M, isCand c p e = true → entryOv (tokens t) e = 0) :
    tier3 M c p t = none := by
  unfold tier3
  rw [bestLoop_all_zero (tokens t) c p M (none, 0) h]

/-- A successful tier-3 result is the non-empty list of a stored candidate
whose positive overlap dominates every candidate's. -/
theorem tier3_some_spec {M : Manifest} {c p t : List Char} {urls : List (List Char)}
    (h : tier3 M c p t = some urls) :
    ∃ e ∈ M, isCand c p e = true ∧ urls = e.2 ∧ 0 < entryOv (tokens t) e ∧
      ∀ e' ∈ M, isCand c p e' = true →
        entryOv (tokens t) e' ≤ entryOv (tokens t) e := by
  unfold tier3 at h
  rcases hb : bestLoop (tokens t) c p M (none, 0) with ⟨fst, snd⟩
  rw [hb] at h
  cases fst with
  | none => simp at h
  | some best =>
    dsimp only at h
    by_cases hcond : (!best.isEmpty && decide (0 < snd)) = true
    · rw [if_pos hcond] at h
      have hbu : best = urls := Option.some_inj.mp h
      subst hbu
      rcases bestLoop_cases (tokens t) c p M (none, 0) with heq | ⟨e, hmem, hcand, h1, h2, h3⟩
      · rw [hb] at heq
        simp at heq
      · rw [hb] at h1 h2
        simp only at h1 h2
        have hbe : best = e.2 := Option.some_inj.mp h1
        refine ⟨e, hmem, hcand, hbe, by simpa using h3, ?_⟩
        intro e' hmem' hcand'
        have := bestLoop_ge_cand (tokens t) c p M (none, 0) e' hmem' hcand'
        rw [hb] at this
        simpa [h2] using this
    · rw [if_neg hcond] at h
      simp at h

/-- If some candidate has positive overlap and all stored lists are
non-empty, tier 3 succeeds. -/
theorem tier3_some_of_pos {M : Manifest} {c p t : List Char}
    (hgood : ∀ e ∈ M, e.2 ≠ [])
    (hex : ∃ e ∈ M, isCand c p e = true ∧ 0 < entryOv (tokens t) e) :
    ∃ urls, tier3 M c p t = some urls := by
  obtain ⟨e0, hmem0, hcand0, hpos0⟩ := hex
  rcases bestLoop_cases (tokens t) c p M (none, 0) with heq | ⟨e, hmem, hcand, h1, h2, h3⟩
  · have := bestLoop_ge_cand (tokens t) c p M (none, 0) e0 hmem0 hcand0
    rw [heq] at this
    omega
  · refine ⟨e.2, ?_⟩
    unfold tier3
    rcases hb : bestLoop (tokens t) c p M (none, 0) with ⟨fst, snd⟩
    rw [hb] at h1 h2
    simp only at h1 h2
    rw [h1]
    have hsnd : 0 < snd := by omega
    have hne : e.2 ≠ [] := hgood e hmem
    simp [hne, hsnd]

/-- `_match_from_manifest` returns either the empty list or the stored list
of some entry of the index. -/
theorem matchFromManifest_cases (M : Manifest) (c p t : List Char) :
    matchFromManifest M c p t = [] ∨
      ∃ e ∈ M, matchFromManifest M c p t = e.2 := by
  unfold matchFromManifest
  cases h1 : dictFind M (c, p, t) with
  | some urls =>
    exact Or.inr ⟨((c, p, t), urls), dictFind_mem h1, rfl⟩
  | none =>
    cases h2 : tier2 M c p t with
    | some urls =>
      obtain ⟨e, hmem, _, _, hu⟩ := tier2_some h2
      exact Or.inr ⟨e, hmem, hu⟩
    | none =>
      cases h3 : tier3 M c p t with
      | some urls =>
        obtain ⟨e, hmem, _, hu, _, _⟩ := tier3_some_spec h3
        exact Or.inr ⟨e, hmem, hu⟩
      | none =>
        cases h4 : tier4 M c p with
        | some urls =>
          obtain ⟨e, hmem, _, hu⟩ := tier4_some h4
          exact Or.inr ⟨e, hmem, by simp [hu]⟩
        | none => exact Or.inl (by simp)

/-- Prefix test is reflexive. -/
theorem isPre_refl (t : List Char) : isPre t t = true := by
  induction t with
  | nil => rfl
  | cons a as ih => simp [isPre, ih]

/-- A prefix is a substring. -/
theorem isSub_of_isPre {t h : List Char} (hp : isPre t h = true) : isSub t h = true := by
  cases h with
  | nil => simpa [isSub] using hp
  | cons c rest => simp [isSub, hp]

/-- Substring test is reflexive. -/
theorem isSub_refl (t : List Char) : isSub t t = true := isSub_of_isPre (isPre_refl t)

/-- The soft type test collapses to the one-directional substring test: the
query type must occur inside the entry type (equality and prefixhood are
special cases); the entry type occurring inside the query type does not
count. -/
theorem softTypeMatch_eq_isSub (mt t : List Char) : softTypeMatch mt t = isSub t mt := by
  unfold softTypeMatch
  cases hs : isSub t mt with
  | true => simp [hs]
  | false =>
    have hpre : isPre t mt = false := by
      cases hp : isPre t mt with
      | false => rfl
      | true => rw [isSub_of_isPre hp] at hs; exact absurd hs (by simp)
    have heq : decide (mt = t) = false := by
      cases hmt : decide (mt = t) with
      | false => rfl
      | true =>
        have hmt' : mt = t := of_decide_eq_true hmt
        subst hmt'
        rw [isSub_refl] at hs
        exact absurd hs (by simp)
    simp [heq, hpre, hs]

/-- The lexicographic order is total. -/
theorem lexLe_total (a b : List Char) : lexLe a b = true ∨ lexLe b a = true := by
  induction a generalizing b with
  | nil => left; rfl
  | cons x as ih =>
    cases b with
    | nil => right; rfl
    | cons y bs =>
      rcases lt_trichotomy x y with h | h | h
      · left; simp [lexLe, h]
      · subst h
        rcases ih bs with h' | h'
        · left; simp [lexLe, lt_irrefl, h']
        · right; simp [lexLe, lt_irrefl, h']
      · right; simp [lexLe, h]

/-- The lexicographic order is transitive. -/
theorem lexLe_trans {a b c : List Char} (h1 : lexLe a b = true) (h2 : lexLe b c = true) :
    lexLe a c = true := by
  induction a generalizing b c with
  | nil => rfl
  | cons x as ih =>
    cases b with
    | nil => simp [lexLe] at h1
    | cons y bs =>
      cases c with
      | nil => simp [lexLe] at h2
      | cons z cs =>
        by_cases hxy : x < y
        · by_cases hyz : y < z
          · have hxz : x < z := lt_trans hxy hyz
            simp [lexLe, hxz]
          · by_cases hzy : z < y
            · simp [lexLe, hyz, hzy] at h2
            · have hyz' : y = z := le_antisymm (not_lt.mp hzy) (not_lt.mp hyz)
              subst hyz'
              simp [lexLe, hxy]
        · by_cases hyx : y < x
          · simp [lexLe, hxy, hyx] at h1
          · have hxy' : x = y := le_antisymm (not_lt.mp hyx) (not_lt.mp hxy)
            subst hxy'
            simp only [lexLe, lt_irrefl, if_false] at h1
            by_cases hxz : x < z
            · simp [lexLe, hxz]
            · by_cases hzx : z < x
              · simp [lexLe, hxz, hzx] at h2
              · have hxz' : x = z := le_antisymm (not_lt.mp hzx) (not_lt.mp hxz)
                subst hxz'
                simp only [lexLe, lt_irrefl, if_false] at h2 ⊢
                exact ih h1 h2

/-- Membership in an ordered insertion. -/
theorem mem_insertLe {x a : List Char} {l : List (List Char)} :
    a ∈ insertLe x l ↔ a = x ∨ a ∈ l := by
  induction l with
  | nil => simp [insertLe]
  | cons y ys ih =>
    unfold insertLe
    by_cases h : lexLe x y = true
    · rw [if_pos h]
      simp only [List.mem_cons]
    · rw [if_neg h]
      simp only [List.mem_cons, ih]
      tauto

/-- Ordered insertion preserves sortedness. -/
theorem sorted_insertLe {x : List Char} {l : List (List Char)}
    (hl : l.Pairwise (fun a b => lexLe a b = true)) :
    (insertLe x l).Pairwise (fun a b => lexLe a b = true) := by
  induction l with
  | nil => simp [insertLe]
  | cons y ys ih =>
    unfold insertLe
    rw [List.pairwise_cons] at hl
    by_cases h : lexLe x y = true
    · rw [if_pos h]
      rw [List.pairwise_cons]
      refine ⟨?_, List.Pairwise.cons hl.1 hl.2⟩
      intro b hb
      rcases List.mem_cons.mp hb with rfl | hb'
      · exact h
      · exact lexLe_trans h (hl.1 b hb')
    · rw [if_neg h]
      have hxy : lexLe y x = true := (lexLe_total x y).resolve_left h
      rw [List.pairwise_cons]
      refine ⟨?_, ih hl.2⟩
      intro b hb
      rcases mem_insertLe.mp hb with rfl | hb'
      · exact hxy
      · exact hl.1 b hb'

/-- The sorting model produces a sorted list. -/
theorem sorted_sortNames (l : List (List Char)) :
    (sortNames l).Pairwise (fun a b => lexLe a b = true) := by
  induction l with
  | nil => simp [sortNames]
  | cons x xs ih => exact sorted_insertLe ih

/-- What a successful folder listing looks like: a sorted list of names, all
with allowed extensions, each prefixed by the folder path. -/
theorem listFolder_ok {path n : List Char} {children : List FSNode}
    {l : List (List Char)}
    (h : listFolder path (FSNode.dir n (some children)) = .ok l) :
    ∃ names : List (List Char),
      names.Pairwise (fun a b => lexLe a b = true) ∧
      (∀ nm ∈ names, lowerStr (pySuffix nm) ∈ allowedExts) ∧
      l = names.map (fun nm => path ++ '/' :: nm) := by
  unfold listFolder at h
  simp only [Except.ok.injEq] at h
  refine ⟨(sortNames (children.map FSNode.name)).filter
    (fun nm => decide (lowerStr (pySuffix nm) ∈ allowedExts)), ?_, ?_, h.symm⟩
  · exact List.Pairwise.filter _ (sorted_sortNames _)
  · intro nm hnm
    exact of_decide_eq_true (List.mem_filter.mp hnm).2

/-- An accepted row's swapped alias key is findable after its loop iteration. -/
theorem loadStep_find_alias {m : Manifest} {r : RawRow} (h : rowAccepted r = true) :
    dictFind (loadStep m r) (rowC r, rowT r, rowP r) = some (rowUrls r) := by
  unfold loadStep
  rw [if_pos h]
  exact dictFind_insert_self _ _ _

/-- An accepted row's primary key is findable after its loop iteration. -/
theorem loadStep_find_primary {m : Manifest} {r : RawRow} (h : rowAccepted r = true) :
    dictFind (loadStep m r) (rowC r, rowP r, rowT r) = some (rowUrls r) := by
  unfold loadStep
  rw [if_pos h]
  by_cases hK : ((rowC r, rowP r, rowT r) : Key) = (rowC r, rowT r, rowP r)
  · rw [← hK]
    exact dictFind_insert_self _ _ _
  · rw [dictFind_insert_other _ _ hK]
    exact dictFind_insert_self _ _ _

/-- Claim C8: `_norm` is idempotent, and it identifies casing and whitespace
variants, e.g. `_norm(" Ditre   Italia ") == _norm("ditre italia")`. -/
theorem claim_norm_idempotent :
    (∀ s : List Char, _norm (_norm s) = _norm s) ∧
    _norm ( " Ditre   Italia ".toList) = _norm ( "ditre italia".toList) :=
  ⟨norm_twice, by decide⟩

/-- Claim C5 counterexample: over the index built from the single row
(A,B,sofa) -> [x.jpg] — all fields non-empty — a query whose normalized type
is the empty string (as produced by a None input) still obtains an image
list from the manifest cascade, contradicting the claim that it never
matches: the soft tier accepts because the empty string is a substring of
every entry type. -/
theorem claim_empty_type_never_matches_cex :
    normOpt none = [] ∧
    matchFromManifest manifestAB ( "a".toList) ( "b".toList) (normOpt none) =
      [ "x.jpg".toList] := by
  exact ⟨rfl, by decide⟩

/-- Claim C5 amended: a None/missing input normalizes to the empty string,
and an empty normalized type (or product) never matches in the EXACT-lookup
tier, because every key of a built index has all three fields non-empty;
the later soft/token/fallback tiers can still return a list for an
empty-type query whenever company and product match. -/
theorem claim_empty_type_exact_miss :
    normOpt none = [] ∧
    (∀ (rows : List RawRow) (c p : List Char),
      dictFind (load_manifest rows) (c, p, []) = none) ∧
    (∀ (rows : List RawRow) (c p : List Char),
      dictFind (load_manifest rows) (c, [], p) = none) := by
  refine ⟨rfl, ?_, ?_⟩
  · intro rows c p
    cases hf : dictFind (load_manifest rows) (c, p, []) with
    | none => rfl
    | some v => exact absurd rfl (load_manifest_find_good hf).2.2.1
  · intro rows c p
    cases hf : dictFind (load_manifest rows) (c, [], p) with
    | none => rfl
    | some v => exact absurd rfl (load_manifest_find_good hf).2.1

/-- Claim C3 counterexample: with the index {(a,b,sofa): [x.jpg]} and query
type "sofa bed", the entry's type "sofa" is a prefix of the query's type
(the claimed "vice versa" direction), the exact tier misses, and yet the
soft tier rejects — the acceptance test is not symmetric. -/
theorem claim_soft_match_not_symmetric_cex :
    isPre ( "sofa".toList) ( "sofa bed".toList) = true ∧
    dictFind manifestAB ( "a".toList, "b".toList, "sofa bed".toList) = none ∧
    tier2 manifestAB ( "a".toList) ( "b".toList) ( "sofa bed".toList) = none := by
  exact ⟨by decide, by decide, by decide⟩

/-- Claim C3 amended: the soft tier's acceptance test is one-directional
only: an entry type `mt` is accepted for query type `t` exactly when `t`
occurs as a substring of `mt` (equality and t-prefix-of-mt are special
cases of that); the reverse direction is not checked.  A successful tier-2
result is the list of such an accepted stored entry. -/
theorem claim_soft_match_one_directional :
    (∀ mt t : List Char, softTypeMatch mt t = isSub t mt) ∧
    (∀ (M : Manifest) (c p t : List Char) (urls : List (List Char)),
      tier2 M c p t = some urls →
      ∃ e ∈ M, isCand c p e = true ∧ isSub t e.1.2.2 = true ∧ urls = e.2) := by
  refine ⟨softTypeMatch_eq_isSub, ?_⟩
  intro M c p t urls h
  obtain ⟨e, hmem, hcand, hsoft, hu⟩ := tier2_some h
  rw [softTypeMatch_eq_isSub] at hsoft
  exact ⟨e, hmem, hcand, hsoft, hu⟩

/-- Witness for the amended claim C3, at the concrete index {(a,b,sofa)} and
query type "sof" (a strict substring of "sofa"). -/
theorem claim_soft_match_one_directional_witness :
    ∃ e ∈ manifestAB, isCand ( "a".toList) ( "b".toList) e = true ∧
      isSub ( "sof".toList) e.1.2.2 = true ∧ [ "x.jpg".toList] = e.2 :=
  claim_soft_match_one_directional.2 manifestAB ( "a".toList) ( "b".toList)
    ( "sof".toList) [ "x.jpg".toList] (by decide)

/-- Claim C2: every accepted manifest row inserts both the primary key
(c,p,t) and the swapped alias key (c,t,p), pointing at the same image list;
consequently the row (Ditre Italia, Alta Sofa, sofa) -> [u1,u2] resolves
with product and type swapped. -/
theorem claim_swapped_alias :
    (∀ (m : Manifest) (r : RawRow), rowAccepted r = true →
      dictFind (loadStep m r) (rowC r, rowP r, rowT r) = some (rowUrls r) ∧
      dictFind (loadStep m r) (rowC r, rowT r, rowP r) = some (rowUrls r)) ∧
    get_image_list manifestDitre imgBase fsEmpty ( "Ditre Italia".toList)
      ( "sofa".toList) ( "Alta Sofa".toList) = .ok [ "u1".toList, "u2".toList] := by
  constructor
  · intro m r h
    exact ⟨loadStep_find_primary h, loadStep_find_alias h⟩
  · rfl

/-- Witness for claim C2: the Ditre Italia row is accepted, and after its
iteration both the primary and the swapped key are findable. -/
theorem claim_swapped_alias_witness :
    dictFind (loadStep [] rowDitre) (rowC rowDitre, rowP rowDitre, rowT rowDitre) =
      some (rowUrls rowDitre) ∧
    dictFind (loadStep [] rowDitre) (rowC rowDitre, rowT rowDitre, rowP rowDitre) =
      some (rowUrls rowDitre) :=
  claim_swapped_alias.1 [] rowDitre (by decide)

/-- Claim C6: a raw row is indexed iff its three fields normalize to
non-empty strings and its cleaned image-reference list is non-empty:
rejected rows leave the index untouched (dropped, no exception is modelled
because the loop body is total), accepted rows become findable, and every
successful lookup in a built index has three non-empty key fields and a
non-empty image list. -/
theorem claim_row_acceptance_invariant :
    (∀ (m : Manifest) (r : RawRow), rowAccepted r = false → loadStep m r = m) ∧
    (∀ (m : Manifest) (r : RawRow), rowAccepted r = true →
      dictFind (loadStep m r) (rowC r, rowP r, rowT r) = some (rowUrls r)) ∧
    (∀ (rows : List RawRow) (c p t : List Char) (urls : List (List Char)),
      dictFind (load_manifest rows) (c, p, t) = some urls →
      c ≠ [] ∧ p ≠ [] ∧ t ≠ [] ∧ urls ≠ []) := by
  refine ⟨?_, ?_, ?_⟩
  · intro m r h
    unfold loadStep
    rw [if_neg (by simp [h])]
  · intro m r h
    exact loadStep_find_primary h
  · intro rows c p t urls h
    have hg := load_manifest_find_good h
    exact ⟨hg.1, hg.2.1, hg.2.2.1, hg.2.2.2.1⟩

/-- Witness for claim C6: the (A,B,sofa) row is accepted and findable with
non-empty fields, and a row with no image references is dropped. -/
theorem claim_row_acceptance_invariant_witness :
    ( "a".toList : List Char) ≠ [] ∧ ( "b".toList : List Char) ≠ [] ∧
    ( "sofa".toList : List Char) ≠ [] ∧ ([ "x.jpg".toList] : List (List Char)) ≠ [] :=
  claim_row_acceptance_invariant.2.2 [rowAB] ( "a".toList) ( "b".toList)
    ( "sofa".toList) [ "x.jpg".toList] (by decide)

/-- Claim C1: the manifest cascade evaluates exact lookup, soft type match,
token overlap and company+product fallback in that fixed order, each tier
only when all earlier tiers produced nothing; the whole cascade is retried
with product and type swapped only when the first ordering produced
nothing, and the filesystem fallback runs only when both orderings
produced nothing.  Concretely, over the index {(A,B,sofa): [x.jpg]}, the
query (A,B,armchair) misses tiers 1-3 and resolves to [x.jpg] via the
company+product fallback tier, not the empty list. -/
theorem claim_cascade_tier_order :
    (∀ (M : Manifest) (c p t : List Char) (urls : List (List Char)),
      dictFind M (c, p, t) = some urls → matchFromManifest M c p t = urls) ∧
    (∀ (M : Manifest) (c p t : List Char) (urls : List (List Char)),
      dictFind M (c, p, t) = none → tier2 M c p t = some urls →
      matchFromManifest M c p t = urls) ∧
    (∀ (M : Manifest) (c p t : List Char) (urls : List (List Char)),
      dictFind M (c, p, t) = none → tier2 M c p t = none →
      tier3 M c p t = some urls → matchFromManifest M c p t = urls) ∧
    (∀ (M : Manifest) (c p t : List Char),
      dictFind M (c, p, t) = none → tier2 M c p t = none → tier3 M c p t = none →
      matchFromManifest M c p t = (tier4 M c p).getD []) ∧
    (∀ (M : Manifest) (basePath : List Char) (base : FSNode)
       (company product ptype : List Char),
      matchFromManifest M (_norm company) (_norm product) (_norm ptype) = [] →
      matchFromManifest M (_norm company) (_norm ptype) (_norm product) = [] →
      get_image_list M basePath base company product ptype =
        fsFallback basePath base company product ptype) ∧
    (dictFind manifestAB ( "a".toList, "b".toList, "armchair".toList) = none ∧
     tier2 manifestAB ( "a".toList) ( "b".toList) ( "armchair".toList) = none ∧
     tier3 manifestAB ( "a".toList) ( "b".toList) ( "armchair".toList) = none ∧
     tier4 manifestAB ( "a".toList) ( "b".toList) = some [ "x.jpg".toList] ∧
     get_image_list manifestAB imgBase fsEmpty ( "A".toList) ( "B".toList)
       ( "armchair".toList) = .ok [ "x.jpg".toList]) := by
  refine ⟨?_, ?_, ?_, ?_, ?_, by decide, by decide, by decide, by decide, by rfl⟩
  · intro M c p t urls h
    unfold matchFromManifest
    rw [h]
  · intro M c p t urls h1 h2
    unfold matchFromManifest
    rw [h1, h2]
  · intro M c p t urls h1 h2 h3
    unfold matchFromManifest
    rw [h1, h2, h3]
  · intro M c p t h1 h2 h3
    unfold matchFromManifest
    rw [h1, h2, h3]
  · intro M basePath base company product ptype h1 h2
    unfold get_image_list
    simp only [h1, h2, if_pos]

/-- Witness for claim C1, exercising the exact tier: a stored key is
returned verbatim by the cascade. -/
theorem claim_cascade_tier_order_witness :
    matchFromManifest manifestAB ( "a".toList) ( "b".toList) ( "sofa".toList) =
      [ "x.jpg".toList] :=
  claim_cascade_tier_order.1 manifestAB ( "a".toList) ( "b".toList) ( "sofa".toList)
    [ "x.jpg".toList] (by decide)

/-- Claim C4: a successful token-overlap tier returns the stored list of a
candidate with positive overlap dominating every candidate's overlap;
all-zero overlaps make the tier yield nothing; a positive-overlap candidate
(with non-empty stored lists, as in any built index) makes it succeed; and
on the canonical tie — entry types "coffee table" and "side table", query
type "table" — the first entry in index iteration order wins
deterministically, in either insertion order. -/
theorem claim_token_overlap_best :
    (∀ (M : Manifest) (c p t : List Char) (urls : List (List Char)),
      tier3 M c p t = some urls →
      ∃ e ∈ M, isCand c p e = true ∧ urls = e.2 ∧ 0 < entryOv (tokens t) e ∧
        ∀ e' ∈ M, isCand c p e' = true →
          entryOv (tokens t) e' ≤ entryOv (tokens t) e) ∧
    (∀ (M : Manifest) (c p t : List Char),
      (∀ e ∈ M, isCand c p e = true → entryOv (tokens t) e = 0) →
      tier3 M c p t = none) ∧
    (∀ (M : Manifest) (c p t : List Char),
      (∀ e ∈ M, e.2 ≠ []) →
      (∃ e ∈ M, isCand c p e = true ∧ 0 < entryOv (tokens t) e) →
      ∃ urls, tier3 M c p t = some urls) ∧
    (tier3 manifestTie ( "a".toList) ( "b".toList) ( "table".toList) =
      some [ "c1".toList] ∧
     tier3 manifestTieRev ( "a".toList) ( "b".toList) ( "table".toList) =
      some [ "s1".toList]) :=
  ⟨fun _ _ _ _ _ h => tier3_some_spec h,
   fun _ _ _ _ h => tier3_none_of_zero h,
   fun _ _ _ _ hg hx => tier3_some_of_pos hg hx,
   by decide, by decide⟩

/-- Witness for claim C4: the winning coffee-table entry of the tie fixture
has positive dominating overlap. -/
theorem claim_token_overlap_best_witness :
    ∃ e ∈ manifestTie, isCand ( "a".toList) ( "b".toList) e = true ∧
      [ "c1".toList] = e.2 ∧ 0 < entryOv (tokens ( "table".toList)) e ∧
      ∀ e' ∈ manifestTie, isCand ( "a".toList) ( "b".toList) e' = true →
        entryOv (tokens ( "table".toList)) e' ≤ entryOv (tokens ( "table".toList)) e :=
  claim_token_overlap_best.1 manifestTie ( "a".toList) ( "b".toList)
    ( "table".toList) [ "c1".toList] (by decide)

/-- Claim C7 counterexample: when enumerating the base directory raises
(a directory without a readable listing), the exception escapes
`resolve_caseless_path` — the try/except sits inside the loop body and does
not cover `iterdir` itself — and, with an empty manifest, propagates out of
`get_image_list`, contradicting "returns Absent on a directory-enumeration
error, never propagating an exception to the caller". -/
theorem claim_resolver_error_propagates_cex :
    resolve_caseless_path imgBase fsBroken [ "a".toList] = .error () ∧
    get_image_list [] imgBase fsBroken ( "a".toList) ( "b".toList) ( "c".toList) =
      .error () :=
  ⟨rfl, rfl⟩

/-- Claim C7 amended: the cascade returns the empty list — never an error —
whenever both manifest orderings produce nothing and the filesystem descent
resolves to Absent; the path resolver yields Absent on a non-directory or
inaccessible parent and on an unmatched segment, and per-child stat
failures are skipped; but a directory-enumeration failure raises, and the
exception propagates out of get_image_list instead of becoming Absent. -/
theorem claim_resolver_absent_totality :
    (∀ nm wanted : List Char, child_caseless (FSNode.file nm) wanted = .ok none) ∧
    (∀ nm wanted : List Char, child_caseless (FSNode.broken nm) wanted = .ok none) ∧
    (∀ (nm wanted : List Char) (children : List FSNode),
      (∀ ch ∈ children, isDirNamed (_norm wanted) ch = false) →
      child_caseless (FSNode.dir nm (some children)) wanted = .ok none) ∧
    (∀ nm wanted : List Char, child_caseless (FSNode.dir nm none) wanted = .error ()) ∧
    (∀ (M : Manifest) (basePath : List Char) (base : FSNode)
       (company product ptype : List Char),
      matchFromManifest M (_norm company) (_norm product) (_norm ptype) = [] →
      matchFromManifest M (_norm company) (_norm ptype) (_norm product) = [] →
      resolve_caseless_path basePath base [company, product, ptype] = .ok none →
      get_image_list M basePath base company product ptype = .ok []) := by
  refine ⟨fun _ _ => rfl, fun _ _ => rfl, ?_, fun _ _ => rfl, ?_⟩
  · intro nm wanted children h
    unfold child_caseless
    dsimp only
    rw [List.find?_eq_none.mpr ?hnone]
    intro ch hch
    simp [h ch hch]
  · intro M basePath base company product ptype h1 h2 h3
    unfold get_image_list fsFallback
    simp only [h1, h2, h3, if_pos]

/-- Witness for the amended claim C7: empty manifest, empty image base
directory, unresolvable segments, empty result. -/
theorem claim_resolver_absent_totality_witness :
    get_image_list [] imgBase fsEmpty ( "a".toList) ( "b".toList) ( "c".toList) =
      .ok [] :=
  claim_resolver_absent_totality.2.2.2.2 [] imgBase fsEmpty ( "a".toList)
    ( "b".toList) ( "c".toList) rfl rfl rfl

/-- A non-empty cascade result over a built index consists of good
references. -/
theorem matchFromManifest_good {rows : List RawRow} {c p t : List Char}
    (hne : matchFromManifest (load_manifest rows) c p t ≠ []) :
    ∀ u ∈ matchFromManifest (load_manifest rows) c p t,
      u ≠ [] ∧ ∃ ch ∈ u, isPySpace ch = false := by
  rcases matchFromManifest_cases (load_manifest rows) c p t with h | ⟨e, hmem, heq⟩
  · exact absurd h hne
  · rw [heq]
    intro u hu
    exact (load_manifest_good rows e hmem).2.2.2.2 u hu

/-- Claim C9: get_image_list is a pure function of the index snapshot, the
filesystem state and the arguments — equal inputs give equal outputs; when
both manifest orderings produce nothing the result is exactly the
filesystem fallback; and a successful directory listing of that fallback
is a name-sorted list of entries whose lowered suffixes lie in the fixed
allow-list jpg/jpeg/png/webp, each returned as the folder path plus the
file name. -/
theorem claim_resolve_deterministic_sorted :
    (∀ (M M' : Manifest) (bp bp' : List Char) (base base' : FSNode)
       (c c' p p' t t' : List Char),
      M = M' → bp = bp' → base = base' → c = c' → p = p' → t = t' →
      get_image_list M bp base c p t = get_image_list M' bp' base' c' p' t') ∧
    (∀ (M : Manifest) (bp : List Char) (base : FSNode)
       (company product ptype : List Char),
      matchFromManifest M (_norm company) (_norm product) (_norm ptype) = [] →
      matchFromManifest M (_norm company) (_norm ptype) (_norm product) = [] →
      get_image_list M bp base company product ptype =
        fsFallback bp base company product ptype) ∧
    (∀ (path nm : List Char) (children : List FSNode) (l : List (List Char)),
      listFolder path (FSNode.dir nm (some children)) = .ok l →
      ∃ names : List (List Char),
        names.Pairwise (fun a b => lexLe a b = true) ∧
        (∀ x ∈ names, lowerStr (pySuffix x) ∈ allowedExts) ∧
        l = names.map (fun x => path ++ '/' :: x)) := by
  refine ⟨?_, ?_, fun path nm children l h => listFolder_ok h⟩
  · intro M M' bp bp' base base' c c' p p' t t' h1 h2 h3 h4 h5 h6
    subst h1
    subst h2
    subst h3
    subst h4
    subst h5
    subst h6
    rfl
  · intro M bp base company product ptype h1 h2
    unfold get_image_list
    simp only [h1, h2, if_pos]

/-- Witness for claim C9: the concrete leaf listing is sorted, filtered to
the allow-list, and path-prefixed. -/
theorem claim_resolve_deterministic_sorted_witness :
    ∃ names : List (List Char),
      names.Pairwise (fun a b => lexLe a b = true) ∧
      (∀ x ∈ names, lowerStr (pySuffix x) ∈ allowedExts) ∧
      [ "images/A/B/C/a.jpg".toList, "images/A/B/C/b.png".toList] =
        names.map (fun x => ( "images/A/B/C".toList) ++ '/' :: x) :=
  claim_resolve_deterministic_sorted.2.2 ( "images/A/B/C".toList) ( "C".toList)
    [FSNode.file ( "b.png".toList), FSNode.file ( "a.jpg".toList),
     FSNode.file ( "c.txt".toList)]
    [ "images/A/B/C/a.jpg".toList, "images/A/B/C/b.png".toList] (by rfl)

/-- Claim C10 (implicit): every reference in a list returned by
get_image_list over a built index is non-empty and contains a
non-whitespace character — manifest-sourced lists store only cleaned
non-empty references, and filesystem-sourced entries are full paths
containing the path separator. -/
theorem claim_resolved_refs_nonempty :
    ∀ (rows : List RawRow) (bp : List Char) (base : FSNode)
      (company product ptype : List Char) (l : List (List Char)),
      get_image_list (load_manifest rows) bp base company product ptype = .ok l →
      ∀ u ∈ l, u ≠ [] ∧ ∃ ch ∈ u, isPySpace ch = false := by
  intro rows bp base company product ptype l h u hu
  unfold get_image_list at h
  by_cases h1 : matchFromManifest (load_manifest rows) (_norm company)
      (_norm product) (_norm ptype) = []
  · rw [if_pos h1] at h
    by_cases h2 : matchFromManifest (load_manifest rows) (_norm company)
        (_norm ptype) (_norm product) = []
    · rw [if_pos h2] at h
      unfold fsFallback at h
      cases hr : resolve_caseless_path bp base [company, product, ptype] with
      | error e =>
        rw [hr] at h
        exact absurd h (by simp)
      | ok o =>
        rw [hr] at h
        cases o with
        | none =>
          simp only [Except.ok.injEq] at h
          subst h
          simp at hu
        | some pf =>
          obtain ⟨path, folder⟩ := pf
          cases folder with
          | broken nm =>
            simp only [listFolder, Except.ok.injEq] at h
            subst h
            simp at hu
          | file nm => simp [listFolder] at h
          | dir nm och =>
            cases och with
            | none => simp [listFolder] at h
            | some children =>
              obtain ⟨names, _, _, hmap⟩ := listFolder_ok h
              subst hmap
              obtain ⟨x, _, rfl⟩ := List.mem_map.mp hu
              refine ⟨by simp, '/', by simp, by decide⟩
    · rw [if_neg h2] at h
      simp only [Except.ok.injEq] at h
      subst h
      exact matchFromManifest_good h2 u hu
  · rw [if_neg h1] at h
    simp only [Except.ok.injEq] at h
    subst h
    exact matchFromManifest_good h1 u hu

/-- Witness for claim C10: the fallback result over the concrete tree
consists of non-empty, non-whitespace-only paths. -/
theorem claim_resolved_refs_nonempty_witness :
    ( "images/A/B/C/a.jpg".toList : List Char) ≠ [] ∧
      ∃ ch ∈ ( "images/A/B/C/a.jpg".toList : List Char), isPySpace ch = false :=
  claim_resolved_refs_nonempty [] imgBase fsTree ( "a".toList) ( "b".toList)
    ( "c".toList)
    [ "images/A/B/C/a.jpg".toList, "images/A/B/C/b.png".toList] (by rfl)
    ( "images/A/B/C/a.jpg".toList) (by simp)
